import Mathlib

/-!
Verification of the link-resolution engine of the obsidian-lazy-links plugin
(src/main.ts), shallowly embedded in Lean. Strings are modelled as `List Char`
(JS `toLowerCase` as per-character `Char.toLower`), the JS `Map` as an
association list with JS `Map.set` semantics (replace in place, else append),
and documents as records carrying the fields the engine reads from the
metadata cache.
-/

namespace LazyLinks

/-- A file of the vault (`TFile`): identity is the full path; `basename` is the
file name without extension. -/
structure TFile where
  basename : List Char
  path : List Char
deriving DecidableEq, Repr

/-- One entry of the link index (`LinkTarget` of src/main.ts). -/
structure LinkTarget where
  file : TFile
  isAlias : Bool
  actualName : List Char
  subpath : Option (List Char) := none
deriving DecidableEq, Repr

/-- A heading of a document's metadata cache (`HeadingCache`). -/
structure Heading where
  heading : List Char
  level : Nat
deriving DecidableEq, Repr

/-- A document as the engine reads it during a rebuild: its file, the
`ignore_linking === true` frontmatter flag, its headings, and its frontmatter
aliases already normalized to a list (a scalar alias becomes a one-element
list); `none` stands for a non-string alias value, which the code skips. -/
structure Doc where
  file : TFile
  ignoreLinking : Bool
  headings : List Heading
  aliases : List (Option (List Char))
deriving DecidableEq, Repr

/-- The six `headerLevels` toggles of the settings. -/
structure HeaderLevels where
  h1 : Bool
  h2 : Bool
  h3 : Bool
  h4 : Bool
  h5 : Bool
  h6 : Bool
deriving DecidableEq, Repr

/-- The lookup `settings.headerLevels` at key `h1` .. `h6`: levels outside
1..6 read an absent property, which is falsy. -/
def HeaderLevels.enabled (hl : HeaderLevels) : Nat → Bool
  | 1 => hl.h1
  | 2 => hl.h2
  | 3 => hl.h3
  | 4 => hl.h4
  | 5 => hl.h5
  | 6 => hl.h6
  | _ => false

/-- The matching-relevant part of `LazyLinksSettings`. -/
structure LazyLinksSettings where
  matchStart : Bool
  matchEnd : Bool
  matchMiddle : Bool
  minMatchLength : Nat
  includeHeaders : Bool
  headerLevels : HeaderLevels
deriving DecidableEq, Repr

/-- `DEFAULT_SETTINGS` of src/main.ts (matching-relevant fields). -/
def DEFAULT_SETTINGS : LazyLinksSettings :=
  { matchStart := true
    matchEnd := true
    matchMiddle := false
    minMatchLength := 3
    includeHeaders := false
    headerLevels := ⟨true, true, true, false, false, false⟩ }

/-- JS `toLowerCase`, per character. -/
def toLowerCase (s : List Char) : List Char := s.map Char.toLower

/-- The link index: a JS `Map<string, LinkTarget>` as an association list. -/
abbrev Index : Type := List (List Char × LinkTarget)

/-- `Map.get`: the binding of `k`, if any (`mapSet` keeps keys unique). -/
def idxGet (m : Index) (k : List Char) : Option LinkTarget :=
  (List.find? (fun p => p.1 = k) m).map (fun p => p.2)

/-- `Map.has`. -/
def idxHas (m : Index) (k : List Char) : Bool := (idxGet m k).isSome

/-- `Map.set`: replace the value of an existing key in place, otherwise append
the new binding at the end (JS insertion-order semantics). -/
def mapSet (m : Index) (k : List Char) (v : LinkTarget) : Index :=
  if idxHas m k then
    m.map (fun p => if p.1 = k then (k, v) else p)
  else
    m ++ [(k, v)]

/-- The key set of the index, in insertion order. -/
def idxKeys (m : Index) : List (List Char) := m.map (fun p => p.1)

/-- The body of `cache.headings.forEach` in `rebuildIndex`: a heading is
written when its level is enabled and its text is at least `minMatchLength`
long; the entry points at the file with subpath `"#" + heading`. -/
def headingStep (st : LazyLinksSettings) (f : TFile) (acc : Index)
    (h : Heading) : Index :=
  if st.headerLevels.enabled h.level &&
      decide (st.minMatchLength ≤ h.heading.length) then
    mapSet acc (toLowerCase h.heading)
      { file := f, isAlias := false, actualName := h.heading,
        subpath := some ('#' :: h.heading) }
  else acc

/-- The body of `arr.forEach` over the aliases in `rebuildIndex`: string
aliases are written, non-string values are skipped. -/
def aliasStep (f : TFile) (acc : Index) (a : Option (List Char)) : Index :=
  match a with
  | some s => mapSet acc (toLowerCase s) { file := f, isAlias := true, actualName := s }
  | none => acc

/-- The index entry a non-ignored document's own basename write produces. -/
def basenameTarget (d : Doc) : LinkTarget :=
  { file := d.file, isAlias := false, actualName := d.file.basename }

/-- Processing of one document inside `rebuildIndex`'s `files.forEach`:
a document with `ignore_linking: true` is skipped entirely; otherwise its
headings (only with `includeHeaders`), then its string aliases, then — always
last — its basename are written into the map. -/
def addDoc (st : LazyLinksSettings) (m : Index) (d : Doc) : Index :=
  if d.ignoreLinking then m
  else
    let m1 : Index :=
      if st.includeHeaders then d.headings.foldl (headingStep st d.file) m
      else m
    let m2 : Index := d.aliases.foldl (aliasStep d.file) m1
    mapSet m2 (toLowerCase d.file.basename) (basenameTarget d)

/-- `rebuildIndex`: a fresh map built from the document snapshot, one document
at a time in iteration order. -/
def rebuildIndex (st : LazyLinksSettings) (docs : List Doc) : Index :=
  docs.foldl (addDoc st) []

/-- `rebuildIndex` as the plugin runs it: it builds `newIndex` from scratch and
replaces `this.linkIndex`, never reading the previous index. -/
def rebuildIndexFrom (st : LazyLinksSettings) (docs : List Doc)
    (_old : Index) : Index :=
  rebuildIndex st docs

/-- `getSelfNames`: the document's lowercased basename, its string aliases and
all of its heading texts (no level or length filter here). -/
def getSelfNames (d : Doc) : List (List Char) :=
  (toLowerCase d.file.basename ::
    d.aliases.foldr
      (fun a acc => match a with | some s => toLowerCase s :: acc | none => acc)
      []) ++
  d.headings.map (fun h => toLowerCase h.heading)

/-- Result of `findBestMatch`. -/
structure MatchResult where
  target : Option LinkTarget
  isPartial : Bool
  matchedString : List Char
deriving DecidableEq, Repr

/-- The no-match result `{target: null, isPartial: false, matchedString: ""}`. -/
def noMatch : MatchResult := ⟨none, false, []⟩

/-- `lower.substring(i, i + len)` (with `i + len ≤ lower.length` at every call
site). -/
def subAt (s : List Char) (i len : Nat) : List Char := (s.drop i).take len

/-- The classification-and-acceptance test of the inner loop: a candidate at
offset `i` of length `len` in a word of length `n` is valid when its positional
class (start / end / middle) is enabled in the settings. -/
def classValid (st : LazyLinksSettings) (i len n : Nat) : Bool :=
  let isStart := i == 0
  let isEnd := i + len == n
  let isMiddle := !isStart && !isEnd
  (isStart && st.matchStart) || (isEnd && st.matchEnd) ||
    (isMiddle && st.matchMiddle)

/-- The full acceptance test of one loop iteration: the substring is not a
self-name (`continue` otherwise), is a key of the index, and its class is
enabled. -/
def acceptCand (st : LazyLinksSettings) (idx : Index) (sel : List (List Char))
    (lower : List Char) (len i : Nat) : Bool :=
  let sub := subAt lower i len
  !sel.contains sub && idxHas idx sub && classValid st i len lower.length

/-- The descending sequence of candidate lengths `lower.length - 1, ...,
minMatchLength` of the outer loop. The JS loop runs over signed integers, so
for the empty word (`length - 1 = -1`) it performs no iteration. -/
def subLens (n minLen : Nat) : List Nat :=
  if n = 0 then [] else (List.range' minLen (n - minLen)).reverse

/-- The double loop of `findBestMatch`: lengths descending, offsets `0 ..
lower.length - len` left to right, returning at the first accepted candidate. -/
def bestSubMatch (st : LazyLinksSettings) (idx : Index)
    (sel : List (List Char)) (lower : List Char) : Option MatchResult :=
  (subLens lower.length st.minMatchLength).findSome? (fun len =>
    ((List.range (lower.length - len + 1)).find?
        (fun i => acceptCand st idx sel lower len i)).map
      (fun i =>
        ⟨idxGet idx (subAt lower i len), true, subAt lower i len⟩))

/-- `findBestMatch(word, selfNames)` against index `idx` and settings `st`. -/
def findBestMatch (st : LazyLinksSettings) (idx : Index) (word : List Char)
    (sel : List (List Char)) : MatchResult :=
  let lower := toLowerCase word
  if idxHas idx lower && !sel.contains lower then
    ⟨idxGet idx lower, false, lower⟩
  else if !st.matchStart && !st.matchEnd && !st.matchMiddle then noMatch
  else if decide (word.length < st.minMatchLength) then noMatch
  else (bestSubMatch st idx sel lower).getD noMatch

/-- JS truthiness of `target.subpath` (`undefined` and `""` are falsy). -/
def subpathTruthy : Option (List Char) → Bool
  | some s => !s.isEmpty
  | none => false

/-- The `subpath` component as a string, `""` when falsy. -/
def subpathOrEmpty : Option (List Char) → List Char
  | some s => s
  | none => []

/-- The replacement text computed by `convertLink`: the path part is
`target.file.basename` plus the subpath when the latter is truthy, and the
original word is kept as display text unless it equals `target.actualName` and
there is no subpath. -/
def convertLinkText (word : List Char) (t : LinkTarget) : List Char :=
  let filePart := t.file.basename
  let linkPath :=
    if subpathTruthy t.subpath then filePart ++ subpathOrEmpty t.subpath
    else filePart
  if word = t.actualName then
    if subpathTruthy t.subpath then
      '[' :: '[' :: (linkPath ++ '|' :: (word ++ [']', ']']))
    else
      '[' :: '[' :: (linkPath ++ [']', ']'])
  else
    '[' :: '[' :: (linkPath ++ '|' :: (word ++ [']', ']']))

/-- JS `\w`: ASCII letters, digits and underscore. -/
def isWordChar (c : Char) : Bool := c.isAlphanum || c == '_'

/-- The token stream of the regex loop `/\b\w+\b/g`: the maximal runs of word
characters, each with its starting offset. `cur` carries the start offset and
the (reversed) characters of the word run currently being read. -/
def tokenizeFrom : List Char → Nat → Option (Nat × List Char) →
    List (Nat × List Char)
  | [], _, none => []
  | [], _, some (s, acc) => [(s, acc.reverse)]
  | c :: cs, i, none =>
      if isWordChar c then tokenizeFrom cs (i + 1) (some (i, [c]))
      else tokenizeFrom cs (i + 1) none
  | c :: cs, i, some (s, acc) =>
      if isWordChar c then tokenizeFrom cs (i + 1) (some (s, c :: acc))
      else (s, acc.reverse) :: tokenizeFrom cs (i + 1) none

/-- All word tokens of a text with their offsets. -/
def tokens (text : List Char) : List (Nat × List Char) :=
  tokenizeFrom text 0 none

/-- JS `substring(a, b)` with `a ≤ b`: the characters at positions `[a, b)`. -/
def sliceStr (text : List Char) (a b : Nat) : List Char := (text.take b).drop a

/-- Whether `pat` occurs at the start of `hay`. -/
def startsWithSeq : List Char → List Char → Bool
  | _, [] => true
  | [], _ :: _ => false
  | c :: cs, d :: ds => c == d && startsWithSeq cs ds

/-- JS `String.includes`: whether `pat` occurs anywhere in `hay`. -/
def containsSeq : List Char → List Char → Bool
  | [], pat => startsWithSeq [] pat
  | c :: t, pat => startsWithSeq (c :: t) pat || containsSeq t pat

/-- The bracket guard of `buildDecorations` and `LazyLinksView.render`: a token
starting at `start` with length `len` is skipped when the two characters before
it contain `[[` or the two characters after it contain `]]`. -/
def tokenSuppressed (text : List Char) (start len : Nat) : Bool :=
  let e := start + len
  let prevTwo := sliceStr text (start - 2) start
  let nextTwo := sliceStr text e (min text.length (e + 2))
  containsSeq prevTwo ['[', '['] || containsSeq nextTwo [']', ']']

/-- The tokens of a text that survive the bracket guard and are therefore
submitted to `findBestMatch`. -/
def eligibleTokens (text : List Char) : List (Nat × List Char) :=
  (tokens text).filter (fun p => !tokenSuppressed text p.1 p.2.length)

/-- The scan loop of `LazyLinksView.render` (and of `buildDecorations` on a
single visible range starting at 0): every non-suppressed token is resolved,
and the tokens with a non-null target are collected with their offsets. -/
def scanMatches (st : LazyLinksSettings) (idx : Index) (sel : List (List Char))
    (text : List Char) : List (Nat × MatchResult) :=
  ((eligibleTokens text).map
      (fun p => (p.1, findBestMatch st idx p.2 sel))).filter
    (fun q => q.2.target.isSome)

/-- Modelled from the spec (§4.5 Materializer), for comparison with
`convertLinkText`: the spec builds the path portion of the link from
`target.actualName`. -/
def materializeSpec (word : List Char) (t : LinkTarget) : List Char :=
  if word = t.actualName then
    match t.subpath with
    | none => '[' :: '[' :: (t.actualName ++ [']', ']'])
    | some sp => '[' :: '[' :: (t.actualName ++ sp ++ '|' :: (word ++ [']', ']']))
  else
    '[' :: '[' ::
      (t.actualName ++ subpathOrEmpty t.subpath ++ '|' :: (word ++ [']', ']']))

/-- The Materializer cases as C1 states them, amended only in that the path
portion of the link is built from `target.file.basename` instead of
`target.actualName`. -/
def materializeAmended (word : List Char) (t : LinkTarget) : List Char :=
  if word = t.actualName then
    match t.subpath with
    | none => '[' :: '[' :: (t.file.basename ++ [']', ']'])
    | some sp =>
        '[' :: '[' :: (t.file.basename ++ sp ++ '|' :: (word ++ [']', ']']))
  else
    '[' :: '[' ::
      (t.file.basename ++ subpathOrEmpty t.subpath ++ '|' ::
        (word ++ [']', ']']))

/-- The flat candidate enumeration the spec describes for the partial phase:
lengths descending from `n - 1` to `minMatchLength`, and within each length the
offsets left to right. -/
def candList (n minLen : Nat) : List (Nat × Nat) :=
  (subLens n minLen).flatMap
    (fun len => (List.range (n - len + 1)).map (fun i => (len, i)))

/-- Modelled from the spec (§4.4 step 4): the partial phase returns the first
candidate of the flat enumeration that is accepted (not a self-name, a key of
the index, class enabled). -/
def specSubMatch (st : LazyLinksSettings) (idx : Index)
    (sel : List (List Char)) (lower : List Char) : Option MatchResult :=
  ((candList lower.length st.minMatchLength).find?
      (fun c => acceptCand st idx sel lower c.1 c.2)).map
    (fun c => ⟨idxGet idx (subAt lower c.2 c.1), true, subAt lower c.2 c.1⟩)

/-- The set of index keys a document's processing writes during a rebuild
(used to state when a later document can overwrite an earlier one's entry). -/
def docWrites (st : LazyLinksSettings) (d : Doc) (k : List Char) : Bool :=
  if d.ignoreLinking then false
  else
    (st.includeHeaders &&
        d.headings.any (fun h =>
          st.headerLevels.enabled h.level &&
            decide (st.minMatchLength ≤ h.heading.length) &&
            decide (toLowerCase h.heading = k))) ||
      d.aliases.any (fun a =>
        match a with
        | some s => decide (toLowerCase s = k)
        | none => false) ||
      decide (toLowerCase d.file.basename = k)

/-! Concrete fixtures used by the examples of the spec and by witnesses. -/

/-- A vault file named `Apple`. -/
def appleFile : TFile := ⟨"Apple".data, "Apple.md".data⟩

/-- The basename target of `appleFile`. -/
def appleTarget : LinkTarget := ⟨appleFile, false, "Apple".data, none⟩

/-- The one-entry index `{"apple": A}` of the spec's examples. -/
def appleOnlyIdx : Index := [("apple".data, appleTarget)]

/-- `{matchStart:false, matchEnd:true, matchMiddle:false, minMatchLength:3}`. -/
def endOnlyCfg : LazyLinksSettings :=
  ⟨false, true, false, 3, false, ⟨true, true, true, false, false, false⟩⟩

/-- `{matchStart:true, matchEnd:false, matchMiddle:false, minMatchLength:3}`. -/
def startOnlyCfg : LazyLinksSettings :=
  ⟨true, false, false, 3, false, ⟨true, true, true, false, false, false⟩⟩

/-- An alias target: key produced by alias `Apple` of the file `Fruits`. -/
def fruitsAliasTarget : LinkTarget :=
  ⟨⟨"Fruits".data, "Fruits.md".data⟩, true, "Apple".data, none⟩

/-- A heading target: heading `Staff` of the file `Business`. -/
def staffTarget : LinkTarget :=
  ⟨⟨"Business".data, "Business.md".data⟩, false, "Staff".data,
    some ("#Staff".data)⟩

/-- A document `Apple` in one folder. -/
def appleDocA : Doc := ⟨⟨"Apple".data, "fruit/Apple.md".data⟩, false, [], []⟩

/-- A second document also named `Apple`, in another folder. -/
def appleDocB : Doc := ⟨⟨"Apple".data, "tech/Apple.md".data⟩, false, [], []⟩

/-- A document with the two-character alias `Ab`. -/
def berryDoc : Doc := ⟨⟨"Berry".data, "Berry.md".data⟩, false, [],
  [some ("Ab".data)]⟩

/-- A document flagged `ignore_linking: true`, with a heading and an alias. -/
def ignoredDoc : Doc := ⟨⟨"Secret".data, "Secret.md".data⟩, true,
  [⟨"Hidden".data, 1⟩], [some ("Shh".data)]⟩

/-- A document with a two-character heading `ab` and the heading `Staff`. -/
def headerDoc : Doc := ⟨⟨"Business".data, "Business.md".data⟩, false,
  [⟨"ab".data, 1⟩, ⟨"Staff".data, 2⟩], []⟩

/-- Settings with header indexing on (levels 1-3) and `minMatchLength` 3. -/
def headerCfg : LazyLinksSettings :=
  ⟨true, true, false, 3, true, ⟨true, true, true, false, false, false⟩⟩

/-- Settings with `minMatchLength` 5 (to exercise short exact matches). -/
def minFiveCfg : LazyLinksSettings :=
  ⟨true, true, false, 5, false, ⟨true, true, true, false, false, false⟩⟩

/-- A vault file with a two-character basename. -/
def abFile : TFile := ⟨"Ab".data, "Ab.md".data⟩

/-- A one-entry index whose only key is the two-character `ab`. -/
def abIdx : Index := [("ab".data, ⟨abFile, false, "Ab".data, none⟩)]

/-! Helper lemmas about the association-list `Map`. -/

theorem idxGet_nil (k : List Char) : idxGet [] k = none := rfl

theorem idxGet_cons (a : List Char) (b : LinkTarget) (m : Index)
    (k : List Char) :
    idxGet ((a, b) :: m) k = if a = k then some b else idxGet m k := by
  by_cases h : a = k <;> simp [idxGet, List.find?_cons, h]

theorem idxHas_cons (a : List Char) (b : LinkTarget) (m : Index)
    (k : List Char) :
    idxHas ((a, b) :: m) k = (decide (a = k) || idxHas m k) := by
  by_cases h : a = k <;> simp [idxHas, idxGet_cons, h]

theorem idxGet_append_single (m : Index) (k k' : List Char) (v : LinkTarget) :
    idxGet (m ++ [(k, v)]) k' =
      (idxGet m k').or (if k = k' then some v else none) := by
  induction m with
  | nil => simp [idxGet_nil, idxGet_cons]
  | cons p t ih =>
      obtain ⟨a, b⟩ := p
      by_cases h : a = k' <;> simp [idxGet_cons, h, ih]

theorem idxGet_setMap_eq (m : Index) (k : List Char) (v : LinkTarget)
    (h : idxHas m k = true) :
    idxGet (m.map (fun p => if p.1 = k then (k, v) else p)) k = some v := by
  induction m with
  | nil => simp [idxHas, idxGet_nil] at h
  | cons p t ih =>
      obtain ⟨a, b⟩ := p
      by_cases ha : a = k
      · simp [ha, idxGet_cons]
      · rw [idxHas_cons] at h
        simp only [ha, decide_eq_true_eq, Bool.false_or, decide_False] at h
        simpa [ha, idxGet_cons] using ih h

theorem idxGet_setMap_ne (m : Index) (k k' : List Char) (v : LinkTarget)
    (h : ¬ k = k') :
    idxGet (m.map (fun p => if p.1 = k then (k, v) else p)) k' =
      idxGet m k' := by
  induction m with
  | nil => rfl
  | cons p t ih =>
      obtain ⟨a, b⟩ := p
      by_cases ha : a = k
      · simp [ha, idxGet_cons, ih, h, Ne.symm h]
      · simp [ha, idxGet_cons, ih]

theorem idxGet_mapSet_eq (m : Index) (k : List Char) (v : LinkTarget) :
    idxGet (mapSet m k v) k = some v := by
  unfold mapSet
  by_cases h : idxHas m k
  · simp [h, idxGet_setMap_eq m k v h]
  · have hnone : idxGet m k = none := by
      unfold idxHas at h
      exact Option.not_isSome_iff_eq_none.mp (by simpa using h)
    simp [h, idxGet_append_single, hnone]

theorem idxGet_mapSet_ne (m : Index) (k k' : List Char) (v : LinkTarget)
    (h : ¬ k = k') :
    idxGet (mapSet m k v) k' = idxGet m k' := by
  unfold mapSet
  by_cases hm : idxHas m k
  · simp [hm, idxGet_setMap_ne m k k' v h]
  · simp [hm, idxGet_append_single, h]

theorem idxHas_mapSet_self (m : Index) (k : List Char) (v : LinkTarget) :
    idxHas (mapSet m k v) k = true := by
  simp [idxHas, idxGet_mapSet_eq]

theorem idxHas_mapSet_mono (m : Index) (k k' : List Char) (v : LinkTarget)
    (h : idxHas m k' = true) :
    idxHas (mapSet m k v) k' = true := by
  by_cases hk : k = k'
  · subst hk; exact idxHas_mapSet_self m k v
  · simpa [idxHas, idxGet_mapSet_ne m k k' v hk] using h

/-! Helper lemmas about the folds of the index build. -/

theorem foldl_has_mono {β : Type} (f : Index → β → Index)
    (hf : ∀ acc b k, idxHas acc k = true → idxHas (f acc b) k = true)
    (l : List β) (m : Index) (k : List Char) (h : idxHas m k = true) :
    idxHas (l.foldl f m) k = true := by
  induction l generalizing m with
  | nil => exact h
  | cons b t ih => exact ih _ (hf m b k h)

theorem headingStep_has_mono (st : LazyLinksSettings) (f : TFile)
    (acc : Index) (h : Heading) (k : List Char)
    (hk : idxHas acc k = true) :
    idxHas (headingStep st f acc h) k = true := by
  unfold headingStep
  split
  · exact idxHas_mapSet_mono _ _ _ _ hk
  · exact hk

theorem aliasStep_has_mono (f : TFile) (acc : Index) (a : Option (List Char))
    (k : List Char) (hk : idxHas acc k = true) :
    idxHas (aliasStep f acc a) k = true := by
  unfold aliasStep
  match a with
  | some s => exact idxHas_mapSet_mono _ _ _ _ hk
  | none => exact hk

theorem addDoc_has_mono (st : LazyLinksSettings) (m : Index) (d : Doc)
    (k : List Char) (h : idxHas m k = true) :
    idxHas (addDoc st m d) k = true := by
  unfold addDoc
  split
  · exact h
  · apply idxHas_mapSet_mono
    apply foldl_has_mono _ (fun acc b k hk => aliasStep_has_mono _ acc b k hk)
    split
    · exact foldl_has_mono _
        (fun acc b k hk => headingStep_has_mono st _ acc b k hk) _ _ _ h
    · exact h

theorem foldl_addDoc_has_mono (st : LazyLinksSettings) (docs : List Doc)
    (m : Index) (k : List Char) (h : idxHas m k = true) :
    idxHas (docs.foldl (addDoc st) m) k = true :=
  foldl_has_mono _ (fun acc b k hk => addDoc_has_mono st acc b k hk) docs m k h

theorem headingFold_get (st : LazyLinksSettings) (f : TFile)
    (hs : List Heading) (m : Index) (k : List Char)
    (hk : ∀ h ∈ hs,
      (st.headerLevels.enabled h.level &&
        decide (st.minMatchLength ≤ h.heading.length) &&
        decide (toLowerCase h.heading = k)) = false) :
    idxGet (hs.foldl (headingStep st f) m) k = idxGet m k := by
  induction hs generalizing m with
  | nil => rfl
  | cons h t ih =>
      have hh := hk h (List.mem_cons_self h t)
      have ht : ∀ h' ∈ t, (st.headerLevels.enabled h'.level &&
          decide (st.minMatchLength ≤ h'.heading.length) &&
          decide (toLowerCase h'.heading = k)) = false :=
        fun h' hm => hk h' (List.mem_cons_of_mem h hm)
      rw [List.foldl_cons, ih _ ht]
      unfold headingStep
      by_cases hc : (st.headerLevels.enabled h.level &&
          decide (st.minMatchLength ≤ h.heading.length)) = true
      · have hne : ¬ toLowerCase h.heading = k := by
          intro he
          rw [hc, he] at hh
          simp at hh
        rw [if_pos hc]
        exact idxGet_mapSet_ne _ _ _ _ hne
      · rw [if_neg hc]

theorem aliasFold_get (f : TFile) (as : List (Option (List Char)))
    (m : Index) (k : List Char)
    (hk : ∀ s : List Char, some s ∈ as → ¬ toLowerCase s = k) :
    idxGet (as.foldl (aliasStep f) m) k = idxGet m k := by
  induction as generalizing m with
  | nil => rfl
  | cons a t ih =>
      have ht : ∀ s : List Char, some s ∈ t → ¬ toLowerCase s = k :=
        fun s hm => hk s (List.mem_cons_of_mem a hm)
      rw [List.foldl_cons, ih _ ht]
      match a with
      | none => rfl
      | some s =>
          exact idxGet_mapSet_ne _ _ _ _ (hk s (List.mem_cons_self _ t))

theorem addDoc_get_preserve (st : LazyLinksSettings) (m : Index) (d : Doc)
    (k : List Char) (h : docWrites st d k = false) :
    idxGet (addDoc st m d) k = idxGet m k := by
  unfold docWrites at h
  unfold addDoc
  by_cases hig : d.ignoreLinking = true
  · rw [if_pos hig]
  · rw [if_neg hig]
    rw [if_neg hig] at h
    simp only [Bool.or_eq_false_iff] at h
    obtain ⟨⟨hH, hA⟩, hB⟩ := h
    have hBne : ¬ toLowerCase d.file.basename = k := by simpa using hB
    rw [idxGet_mapSet_ne _ _ _ _ hBne]
    have hAget : ∀ m' : Index,
        idxGet (d.aliases.foldl (aliasStep d.file) m') k = idxGet m' k := by
      intro m'
      apply aliasFold_get
      intro s hs he
      have := List.any_eq_false.mp hA _ hs
      simp [he] at this
    rw [hAget]
    by_cases hInc : st.includeHeaders = true
    · rw [if_pos hInc]
      apply headingFold_get
      intro hh hm
      rw [hInc] at hH
      simp only [Bool.true_and] at hH
      exact Bool.not_eq_true _ ▸ Bool.eq_false_iff.mpr (List.any_eq_false.mp hH _ hm)
    · rw [if_neg hInc]

theorem foldl_addDoc_get_preserve (st : LazyLinksSettings) (docs : List Doc)
    (m : Index) (k : List Char)
    (h : ∀ d ∈ docs, docWrites st d k = false) :
    idxGet (docs.foldl (addDoc st) m) k = idxGet m k := by
  induction docs generalizing m with
  | nil => rfl
  | cons d t ih =>
      rw [List.foldl_cons,
        ih _ (fun d' hd => h d' (List.mem_cons_of_mem d hd)),
        addDoc_get_preserve st m d k (h d (List.mem_cons_self d t))]

theorem addDoc_get_basename (st : LazyLinksSettings) (m : Index) (d : Doc)
    (hig : d.ignoreLinking = false) :
    idxGet (addDoc st m d) (toLowerCase d.file.basename) =
      some (basenameTarget d) := by
  unfold addDoc
  rw [if_neg (by simp [hig])]
  exact idxGet_mapSet_eq _ _ _

theorem rebuild_get_basename (st : LazyLinksSettings) (pre post : List Doc)
    (d : Doc) (hig : d.ignoreLinking = false)
    (hpost : ∀ e ∈ post, docWrites st e (toLowerCase d.file.basename) = false) :
    idxGet (rebuildIndex st (pre ++ d :: post)) (toLowerCase d.file.basename) =
      some (basenameTarget d) := by
  unfold rebuildIndex
  rw [List.foldl_append, List.foldl_cons,
    foldl_addDoc_get_preserve st post _ _ hpost,
    addDoc_get_basename st _ d hig]

theorem rebuild_has_basename (st : LazyLinksSettings) (pre post : List Doc)
    (d : Doc) (hig : d.ignoreLinking = false) :
    idxHas (rebuildIndex st (pre ++ d :: post))
      (toLowerCase d.file.basename) = true := by
  unfold rebuildIndex
  rw [List.foldl_append, List.foldl_cons]
  apply foldl_addDoc_has_mono
  simp [idxHas, addDoc_get_basename st _ d hig]

/-! Helper lemmas about the match resolver. -/

theorem findBestMatch_exact_phase (st : LazyLinksSettings) (idx : Index)
    (word : List Char) (sel : List (List Char))
    (h1 : idxHas idx (toLowerCase word) = true)
    (h2 : sel.contains (toLowerCase word) = false) :
    findBestMatch st idx word sel =
      ⟨idxGet idx (toLowerCase word), false, toLowerCase word⟩ := by
  have hcond : (idxHas idx (toLowerCase word) &&
      !sel.contains (toLowerCase word)) = true := by
    rw [h1, h2]; rfl
  unfold findBestMatch
  dsimp only
  rw [hcond]
  simp

theorem mem_subLens {n minLen len : Nat} (h : len ∈ subLens n minLen) :
    minLen ≤ len ∧ len < n := by
  unfold subLens at h
  by_cases hn : n = 0
  · simp [hn] at h
  · rw [if_neg hn, List.mem_reverse, List.mem_range'_1] at h
    omega

theorem subAt_length_le (s : List Char) (i len : Nat) :
    (subAt s i len).length ≤ len := by
  simp [subAt]

theorem find?_flatMap {α β : Type} (l : List α) (g : α → List β)
    (p : β → Bool) :
    (l.flatMap g).find? p = l.findSome? (fun a => (g a).find? p) := by
  induction l with
  | nil => rfl
  | cons a t ih =>
      rw [List.flatMap_cons, List.find?_append, List.findSome?_cons, ih]
      cases hfa : (g a).find? p <;> simp [Option.or]

theorem map_findSome? {α β γ : Type} (g : β → γ) (f : α → Option β)
    (l : List α) :
    (l.findSome? f).map g = l.findSome? (fun a => (f a).map g) := by
  induction l with
  | nil => rfl
  | cons a t ih => cases hfa : f a <;> simp [List.findSome?_cons, hfa, ih]

theorem bestSubMatch_some (st : LazyLinksSettings) (idx : Index)
    (sel : List (List Char)) (lower : List Char) (r : MatchResult)
    (h : bestSubMatch st idx sel lower = some r) :
    ∃ len i, acceptCand st idx sel lower len i = true ∧
      r = ⟨idxGet idx (subAt lower i len), true, subAt lower i len⟩ := by
  unfold bestSubMatch at h
  obtain ⟨len, _, hfl⟩ := List.exists_of_findSome?_eq_some h
  obtain ⟨i, hfind, hr⟩ := Option.map_eq_some'.mp hfl
  exact ⟨len, i, List.find?_some hfind, hr.symm⟩

theorem bestSubMatch_none_of_short_keys (st : LazyLinksSettings) (idx : Index)
    (sel : List (List Char)) (lower : List Char)
    (hkeys : ∀ sub : List Char, idxHas idx sub = true →
      lower.length ≤ sub.length) :
    bestSubMatch st idx sel lower = none := by
  unfold bestSubMatch
  rw [List.findSome?_eq_none_iff]
  intro len hlen
  rw [Option.map_eq_none', List.find?_eq_none]
  intro i _
  unfold acceptCand
  intro hacc
  rw [Bool.and_eq_true, Bool.and_eq_true] at hacc
  have hhas := hacc.1.2
  have := hkeys _ hhas
  have h2 := subAt_length_le lower i len
  have := (mem_subLens hlen).2
  omega

theorem idxHas_singleton (k s : List Char) (v : LinkTarget)
    (h : idxHas [(k, v)] s = true) : k = s := by
  by_cases hk : k = s
  · exact hk
  · simp [idxHas, idxGet_cons, idxGet_nil, hk] at h

theorem aliasFold_has (f : TFile) (as : List (Option (List Char)))
    (s : List Char) :
    some s ∈ as → ∀ m : Index,
      idxHas (as.foldl (aliasStep f) m) (toLowerCase s) = true := by
  induction as with
  | nil => intro h; cases h
  | cons a t ih =>
      intro h m
      rw [List.foldl_cons]
      rcases List.mem_cons.mp h with he | ht
      · have hone : idxHas (aliasStep f m a) (toLowerCase s) = true := by
          rw [← he]
          exact idxHas_mapSet_self _ _ _
        exact foldl_has_mono _
          (fun acc b k hk => aliasStep_has_mono f acc b k hk) t _ _ hone
      · exact ih ht _

theorem addDoc_has_alias (st : LazyLinksSettings) (m : Index) (d : Doc)
    (s : List Char) (hig : d.ignoreLinking = false)
    (ha : some s ∈ d.aliases) :
    idxHas (addDoc st m d) (toLowerCase s) = true := by
  unfold addDoc
  rw [if_neg (by simp [hig])]
  apply idxHas_mapSet_mono
  exact aliasFold_has d.file d.aliases s ha _

theorem rebuild_has_alias (st : LazyLinksSettings) (docs : List Doc) (d : Doc)
    (s : List Char) (hd : d ∈ docs) (hig : d.ignoreLinking = false)
    (ha : some s ∈ d.aliases) :
    idxHas (rebuildIndex st docs) (toLowerCase s) = true := by
  obtain ⟨pre, post, rfl⟩ := List.append_of_mem hd
  unfold rebuildIndex
  rw [List.foldl_append, List.foldl_cons]
  exact foldl_addDoc_has_mono st post _ _ (addDoc_has_alias st _ d s hig ha)

theorem rebuild_has_basename_mem (st : LazyLinksSettings) (docs : List Doc)
    (d : Doc) (hd : d ∈ docs) (hig : d.ignoreLinking = false) :
    idxHas (rebuildIndex st docs) (toLowerCase d.file.basename) = true := by
  obtain ⟨pre, post, rfl⟩ := List.append_of_mem hd
  exact rebuild_has_basename st pre post d hig

/-! The claims. -/

/-- C1, counterexample: for an alias target (`actualName` = `Apple`, file
basename = `Fruits`, no subpath) and the word `Apple`, `convertLink` produces
`[[Fruits]]` while the claim's formula (path built from `target.actualName`)
gives `[[Apple]]` — the path portion is built from `target.file.basename`, not
from `target.actualName`. -/
theorem c1_counterexample :
    convertLinkText ("Apple".data) fruitsAliasTarget = "[[Fruits]]".data ∧
    materializeSpec ("Apple".data) fruitsAliasTarget = "[[Apple]]".data ∧
    convertLinkText ("Apple".data) fruitsAliasTarget ≠
      materializeSpec ("Apple".data) fruitsAliasTarget :=
  ⟨by decide, by decide, by decide⟩

/-- C1, amended: for every word and target (whose subpath, when present, is
non-empty, as every indexed subpath `"#" + heading` is), `convertLink` returns
`[[basename]]` when the word equals `actualName` and there is no subpath,
`[[basename + subpath | word]]` when the word equals `actualName` and a
subpath is present, and `[[basename + (subpath or "") | word]]` otherwise —
i.e. the path portion is always built from `target.file.basename`. -/
theorem c1_amended (word : List Char) (t : LinkTarget)
    (h : t.subpath ≠ some ([] : List Char)) :
    convertLinkText word t = materializeAmended word t := by
  unfold convertLinkText materializeAmended
  cases ht : t.subpath with
  | none => by_cases hw : word = t.actualName <;>
      simp [ht, subpathTruthy, subpathOrEmpty, hw]
  | some sp =>
      have hsp : sp ≠ [] := fun he => h (by rw [ht, he])
      have htr : subpathTruthy (some sp) = true := by
        simp [subpathTruthy, hsp]
      by_cases hw : word = t.actualName <;>
        simp [ht, htr, subpathOrEmpty, hw]

/-- Witness for C1 at the spec's `Business#Staff` example. -/
theorem c1_amended_witness :
    staffTarget.subpath ≠ some ([] : List Char) ∧
    convertLinkText ("Staff".data) staffTarget =
      materializeAmended ("Staff".data) staffTarget :=
  ⟨by decide, c1_amended ("Staff".data) staffTarget (by decide)⟩

/-- C2, counterexample: `appleDocA` and `appleDocB` are two non-ignored
documents sharing the basename `Apple`; after the rebuild the single key
`apple` holds the later document's target, so it is not mapped to a target
whose file is `appleDocA`. -/
theorem c2_counterexample :
    appleDocA.ignoreLinking = false ∧ appleDocB.ignoreLinking = false ∧
    appleDocA.file ≠ appleDocB.file ∧
    (idxGet (rebuildIndex DEFAULT_SETTINGS [appleDocA, appleDocB])
        (toLowerCase appleDocA.file.basename)).map (fun t => t.file) ≠
      some appleDocA.file :=
  ⟨by decide, by decide, by decide, by decide⟩

/-- C2, amended: for every non-ignored document D of the collection, after a
rebuild the index contains the key `D.basename` lowercased; and that key maps
to a target whose file is D provided no later document in build order writes
the same key (when several documents share a key — e.g. the same basename —
the later one overwrites the earlier one's entry). -/
theorem c2_amended (st : LazyLinksSettings) (pre post : List Doc) (D : Doc)
    (h1 : D.ignoreLinking = false) :
    idxHas (rebuildIndex st (pre ++ D :: post))
        (toLowerCase D.file.basename) = true ∧
    ((∀ E ∈ post, docWrites st E (toLowerCase D.file.basename) = false) →
      idxGet (rebuildIndex st (pre ++ D :: post))
          (toLowerCase D.file.basename) = some (basenameTarget D)) :=
  ⟨rebuild_has_basename st pre post D h1,
   fun h2 => rebuild_get_basename st pre post D h1 h2⟩

/-- Witness for C2 on a concrete three-document collection. -/
theorem c2_amended_witness :
    idxHas (rebuildIndex DEFAULT_SETTINGS ([berryDoc] ++ appleDocA :: [ignoredDoc]))
        (toLowerCase appleDocA.file.basename) = true ∧
    idxGet (rebuildIndex DEFAULT_SETTINGS ([berryDoc] ++ appleDocA :: [ignoredDoc]))
        (toLowerCase appleDocA.file.basename) = some (basenameTarget appleDocA) := by
  have h := c2_amended DEFAULT_SETTINGS [berryDoc] [ignoredDoc] appleDocA (by decide)
  exact ⟨h.1, h.2 (by decide)⟩

/-- C3: whenever the lowercased word is a key of the index and not a
self-name, `findBestMatch` returns the exact match — target `index[lower]`,
`isPartial` false, `matchedString` the lowercased word — for every settings
value, in particular regardless of the three match flags and of
`minMatchLength` (the exact phase precedes both checks). -/
theorem c3_exact_precedence (st : LazyLinksSettings) (idx : Index)
    (word : List Char) (sel : List (List Char))
    (h1 : idxHas idx (toLowerCase word) = true)
    (h2 : sel.contains (toLowerCase word) = false) :
    findBestMatch st idx word sel =
      ⟨idxGet idx (toLowerCase word), false, toLowerCase word⟩ :=
  findBestMatch_exact_phase st idx word sel h1 h2

/-- Witness for C3: the two-character word `Ab` is matched exactly although
`minMatchLength` is 5. -/
theorem c3_witness :
    idxHas abIdx (toLowerCase ("Ab".data)) = true ∧
    ([] : List (List Char)).contains (toLowerCase ("Ab".data)) = false ∧
    findBestMatch minFiveCfg abIdx ("Ab".data) [] =
      ⟨idxGet abIdx (toLowerCase ("Ab".data)), false, toLowerCase ("Ab".data)⟩ :=
  ⟨by decide, by decide,
   c3_exact_precedence minFiveCfg abIdx ("Ab".data) [] (by decide) (by decide)⟩

/-- C7: a document flagged `ignore_linking: true` contributes zero entries to
the rebuild — the index built from a collection containing it is exactly the
index built from the collection with that document removed. -/
theorem c7_ignored_contributes_nothing (st : LazyLinksSettings)
    (pre post : List Doc) (d : Doc) (hig : d.ignoreLinking = true) :
    rebuildIndex st (pre ++ d :: post) = rebuildIndex st (pre ++ post) := by
  unfold rebuildIndex
  rw [List.foldl_append, List.foldl_append, List.foldl_cons]
  have hskip : addDoc st (pre.foldl (addDoc st) []) d =
      pre.foldl (addDoc st) [] := by
    unfold addDoc
    rw [if_pos hig]
  rw [hskip]

/-- Witness for C7 on a concrete collection, with header indexing enabled so
the ignored document's heading and alias would otherwise contribute. -/
theorem c7_witness :
    ignoredDoc.ignoreLinking = true ∧
    rebuildIndex headerCfg ([appleDocA] ++ ignoredDoc :: [berryDoc]) =
      rebuildIndex headerCfg ([appleDocA] ++ [berryDoc]) :=
  ⟨by decide,
   c7_ignored_contributes_nothing headerCfg [appleDocA] [berryDoc] ignoredDoc
     (by decide)⟩

/-- C8: a rebuild is a pure function of the document snapshot and the
settings — it never reads the previous index — so rebuilding twice from an
unchanged collection yields the same index: same key set and, for each key,
the same target (file, alias flag, actual name, subpath). -/
theorem c8_idempotent_rebuild (st : LazyLinksSettings) (docs : List Doc)
    (old : Index) :
    rebuildIndexFrom st docs (rebuildIndexFrom st docs old) =
      rebuildIndexFrom st docs old ∧
    idxKeys (rebuildIndexFrom st docs (rebuildIndexFrom st docs old)) =
      idxKeys (rebuildIndexFrom st docs old) ∧
    ∀ k, idxGet (rebuildIndexFrom st docs (rebuildIndexFrom st docs old)) k =
      idxGet (rebuildIndexFrom st docs old) k :=
  ⟨rfl, rfl, fun _ => rfl⟩

/-- C4: with index `{"apple": A}` and selfNames `{"apple"}`, the word `apple`
is never returned as an exact match and the partial phase only considers
strict substrings, so the result is no-match for every settings value; yet a
strict substring of a self-name that is not itself a self-name can still be
returned as a partial match (word `pineapple` with selfNames `{"pineapple"}`
still partial-matches `apple`). -/
theorem c4_self_name_whole_word :
    (∀ st : LazyLinksSettings,
        findBestMatch st appleOnlyIdx ("apple".data) ["apple".data] =
          noMatch) ∧
    findBestMatch endOnlyCfg appleOnlyIdx ("pineapple".data)
        ["pineapple".data] = ⟨some appleTarget, true, "apple".data⟩ := by
  refine ⟨?_, by decide⟩
  intro st
  unfold findBestMatch
  dsimp only
  have hcond : (idxHas appleOnlyIdx (toLowerCase ("apple".data)) &&
      !(["apple".data] : List (List Char)).contains
        (toLowerCase ("apple".data))) = false := by decide
  rw [hcond, if_neg (by simp)]
  by_cases hflags : (!st.matchStart && !st.matchEnd && !st.matchMiddle) = true
  · rw [if_pos hflags]
  · rw [if_neg hflags]
    by_cases hlen : (decide (("apple".data).length < st.minMatchLength)) = true
    · rw [if_pos hlen]
    · rw [if_neg hlen]
      have hlow : toLowerCase ("apple".data) = "apple".data := by decide
      rw [hlow]
      rw [bestSubMatch_none_of_short_keys st appleOnlyIdx _ _ ?_]
      · rfl
      · intro sub hsub
        have hk := idxHas_singleton _ _ _ hsub
        rw [← hk]

/-- C5: the partial phase is exactly "first accepted candidate" of the flat
enumeration with lengths descending from `length - 1` to `minMatchLength` and
offsets left to right within each length — so longer matches beat shorter
ones, the leftmost wins among equal lengths, and a disabled positional class
only skips candidates; concretely, `pineapple` against index `{"apple": A}`
matches with `matchEnd` enabled and does not match with only `matchStart`. -/
theorem c5_first_candidate :
    (∀ (st : LazyLinksSettings) (idx : Index) (sel : List (List Char))
        (lower : List Char),
        bestSubMatch st idx sel lower = specSubMatch st idx sel lower) ∧
    findBestMatch endOnlyCfg appleOnlyIdx ("pineapple".data) [] =
      ⟨some appleTarget, true, "apple".data⟩ ∧
    findBestMatch startOnlyCfg appleOnlyIdx ("pineapple".data) [] =
      noMatch := by
  refine ⟨?_, by decide, by decide⟩
  intro st idx sel lower
  unfold bestSubMatch specSubMatch candList
  rw [find?_flatMap, map_findSome?]
  have hfun : (fun len =>
      (((List.range (lower.length - len + 1)).map (fun i => (len, i))).find?
          (fun c => acceptCand st idx sel lower c.1 c.2)).map
        (fun c =>
          (⟨idxGet idx (subAt lower c.2 c.1), true,
            subAt lower c.2 c.1⟩ : MatchResult))) =
      (fun len =>
        ((List.range (lower.length - len + 1)).find?
            (fun i => acceptCand st idx sel lower len i)).map
          (fun i =>
            (⟨idxGet idx (subAt lower i len), true,
              subAt lower i len⟩ : MatchResult))) := by
    funext len
    rw [List.find?_map, Option.map_map]
    rfl
  rw [hfun]

/-- C6: whenever `findBestMatch` returns a non-null target, the returned
`matchedString` is not a self-name — the exact phase and every candidate of
the partial phase test membership in `selfNames` before accepting. -/
theorem c6_self_exclusion (st : LazyLinksSettings) (idx : Index)
    (word : List Char) (sel : List (List Char))
    (h : (findBestMatch st idx word sel).target ≠ none) :
    sel.contains ((findBestMatch st idx word sel).matchedString) = false := by
  by_cases hcond : (idxHas idx (toLowerCase word) &&
      !sel.contains (toLowerCase word)) = true
  · rw [Bool.and_eq_true, Bool.not_eq_true'] at hcond
    rw [findBestMatch_exact_phase st idx word sel hcond.1 hcond.2]
    exact hcond.2
  · unfold findBestMatch at h ⊢
    dsimp only at h ⊢
    rw [if_neg hcond] at h ⊢
    by_cases hflags : (!st.matchStart && !st.matchEnd && !st.matchMiddle) = true
    · rw [if_pos hflags] at h
      exact absurd rfl h
    · rw [if_neg hflags] at h ⊢
      by_cases hlen : (decide (word.length < st.minMatchLength)) = true
      · rw [if_pos hlen] at h
        exact absurd rfl h
      · rw [if_neg hlen] at h ⊢
        have hne : bestSubMatch st idx sel (toLowerCase word) ≠ none := by
          intro hnone
          rw [hnone] at h
          exact absurd rfl h
        obtain ⟨r, hb⟩ := Option.ne_none_iff_exists'.mp hne
        rw [hb]
        obtain ⟨len, i, hacc, hr⟩ := bestSubMatch_some _ _ _ _ _ hb
        unfold acceptCand at hacc
        dsimp only at hacc
        rw [Bool.and_eq_true, Bool.and_eq_true, Bool.not_eq_true'] at hacc
        rw [hr]
        exact hacc.1.1

/-- Witness for C6 at the suffix-match example. -/
theorem c6_witness :
    (findBestMatch endOnlyCfg appleOnlyIdx ("pineapple".data)
        ["pineapple".data]).target ≠ none ∧
    (["pineapple".data] : List (List Char)).contains
      ((findBestMatch endOnlyCfg appleOnlyIdx ("pineapple".data)
          ["pineapple".data]).matchedString) = false :=
  ⟨by decide, c6_self_exclusion endOnlyCfg appleOnlyIdx ("pineapple".data)
    ["pineapple".data] (by decide)⟩

/-- C9: a token that survives into `eligibleTokens` never has `[[` in the two
characters before it nor `]]` in the two characters after it (suppressed
tokens are filtered out before matching); concretely, `[[Apple]]` yields zero
eligible tokens and zero scan matches even though `apple` is a key of the
index. -/
theorem c9_bracket_guard :
    (∀ (text : List Char) (p : Nat × List Char), p ∈ eligibleTokens text →
        tokenSuppressed text p.1 p.2.length = false) ∧
    eligibleTokens ("[[Apple]]".data) = [] ∧
    idxHas appleOnlyIdx ("apple".data) = true ∧
    scanMatches DEFAULT_SETTINGS appleOnlyIdx [] ("[[Apple]]".data) = [] := by
  refine ⟨?_, by decide, by decide, by decide⟩
  intro text p hp
  unfold eligibleTokens at hp
  have := List.of_mem_filter hp
  simpa using this

/-- Witness for C9: an unbracketed token is eligible and unsuppressed. -/
theorem c9_witness :
    (3, "Apple".data) ∈ eligibleTokens ("An Apple".data) ∧
    tokenSuppressed ("An Apple".data) 3 ("Apple".data).length = false :=
  ⟨by decide,
   c9_bracket_guard.1 ("An Apple".data) (3, "Apple".data) (by decide)⟩

/-- C10: during a rebuild, `minMatchLength` gates only heading keys — string
aliases and basenames of non-ignored documents are indexed whatever their
length; concretely, a two-character heading is not indexed under
`minMatchLength` 3, while a two-character alias is indexed under
`minMatchLength` 5 and is still matched exactly by the exact phase. -/
theorem c10_length_gates_only_headings (st : LazyLinksSettings)
    (docs : List Doc) (d : Doc) (s : List Char) (hd : d ∈ docs)
    (hig : d.ignoreLinking = false) (ha : some s ∈ d.aliases) :
    idxHas (rebuildIndex st docs) (toLowerCase s) = true ∧
    idxHas (rebuildIndex st docs) (toLowerCase d.file.basename) = true ∧
    idxHas (rebuildIndex headerCfg [headerDoc]) ("ab".data) = false ∧
    findBestMatch minFiveCfg (rebuildIndex minFiveCfg [berryDoc])
        ("Ab".data) [] =
      ⟨idxGet (rebuildIndex minFiveCfg [berryDoc]) ("ab".data), false,
        "ab".data⟩ :=
  ⟨rebuild_has_alias st docs d s hd hig ha,
   rebuild_has_basename_mem st docs d hd hig, by decide, by decide⟩

/-- Witness for C10: the two-character alias `Ab` of `berryDoc` is indexed
under `minMatchLength` 5. -/
theorem c10_witness :
    berryDoc ∈ [berryDoc] ∧
    idxHas (rebuildIndex minFiveCfg [berryDoc]) (toLowerCase ("Ab".data)) =
      true :=
  ⟨by decide,
   (c10_length_gates_only_headings minFiveCfg [berryDoc] berryDoc ("Ab".data)
     (by decide) (by decide) (by decide)).1⟩

end LazyLinks
